import Mathlib

/-!
Verification of the `@feathersjs/hooks` middleware-composition library.

The development shallowly embeds the TypeScript sources:

* `base.ts` (registration helpers, `HookContext`, the `withParams` /
  `withDefaults` / `withProps` context updaters, `normalizeOptions`,
  `defaultCollectMiddleware`),
* `object.ts` (`objectHooks`),

and, where the claims concern the composition engine itself (`compose.ts` /
`function.ts`, whose sources are not part of this snapshot), a composer
modelled from the specification document.

JavaScript values are modelled by the inductive type `Value`; a hook context
is a property bag whose properties are either plain data properties or
getter-only accessor properties (the shape produced by
`Object.defineProperty(ctx, k, { get ... })`).  Assigning to a getter-only
property is a silent no-op, matching sloppy-mode JavaScript assignment
semantics (in strict mode it throws; the claims allow either).
-/

namespace HooksSpec

/-- A simplified JavaScript value: enough structure for the behaviours the
claims exercise (undefined, null, booleans, integers, strings, arrays). -/
inductive Value where
  | undef : Value
  | vnull : Value
  | vbool : Bool → Value
  | vnum : Int → Value
  | vstr : String → Value
  | varr : List Value → Value
deriving Repr

/-- The JavaScript test `v === undefined`. -/
def isUndef : Value → Bool
  | Value.undef => true
  | _ => false

theorem isUndef_iff (v : Value) : isUndef v = true ↔ v = Value.undef := by
  cases v <;> simp [isUndef]

/-- JavaScript truthiness for `Value` (used by the `if (self)` test in
`withParams`). -/
def truthy : Value → Bool
  | Value.undef => false
  | Value.vnull => false
  | Value.vbool b => b
  | Value.vnum n => decide (n ≠ 0)
  | Value.vstr s => decide (s ≠ "")
  | Value.varr _ => true

/-- A property of the hook context: either a plain data property or a
getter-only accessor property reading the named parameter fields (the
descriptor installed by `withParams` via `Object.defineProperty`). -/
inductive PropVal where
  | data (v : Value)
  | getter (ps : List String)
deriving Repr

/-- First-match lookup in an association list keyed by strings, mirroring
JavaScript property lookup on the context object. -/
def lookupKey {β : Type} (k : String) : List (String × β) → Option β
  | [] => none
  | (k', v) :: rest => if k = k' then some v else lookupKey k rest

/-- Replace the binding of a key (or append it if absent), mirroring a
JavaScript property write or `Object.defineProperty` on the context. -/
def updateKey {β : Type} (k : String) (v : β) : List (String × β) → List (String × β)
  | [] => [(k, v)]
  | (k', v') :: rest => if k = k' then (k, v) :: rest else (k', v') :: updateKey k v rest

/-- The hook context of `base.ts`: a mutable property bag (class
`HookContext`), with properties possibly turned into getter-only accessors
by `withParams`. -/
structure HookContext where
  props : List (String × PropVal)
deriving Repr

/-- Read the value of a plain data property (used by the derived
`arguments` getter, which maps parameter names over `this[name]`; parameter
names are ordinary data fields, so the nested read is a data read). -/
def dataVal (c : HookContext) (k : String) : Value :=
  match lookupKey k c.props with
  | some (PropVal.data v) => v
  | _ => Value.undef

/-- Property read `context[k]`: a data property yields its value, the
derived `arguments` accessor recomputes the (frozen) snapshot from the
named parameter fields, an absent property is `undefined`. -/
def HookContext.get (c : HookContext) (k : String) : Value :=
  match lookupKey k c.props with
  | some (PropVal.data v) => v
  | some (PropVal.getter ps) => Value.varr (ps.map (fun p => dataVal c p))
  | none => Value.undef

/-- Property write `context[k] = v`: overwrites a data property, silently
does nothing on a getter-only accessor property (sloppy-mode assignment to
a property with no setter), creates the property if absent. -/
def HookContext.set (c : HookContext) (k : String) (v : Value) : HookContext :=
  match lookupKey k c.props with
  | some (PropVal.getter _) => c
  | _ => { props := updateKey k (PropVal.data v) c.props }

/-- Install a getter-only accessor property, mirroring
`Object.defineProperty(context, k, { get ... })` in `withParams`. -/
def defineGetter (c : HookContext) (k : String) (ps : List String) : HookContext :=
  { props := updateKey k (PropVal.getter ps) c.props }

/-- The `params.forEach((name, index) => { context[name] = args[index] })`
loop of `withParams`. -/
def assignParams : List String → Nat → List Value → HookContext → HookContext
  | [], _, _, c => c
  | n :: rest, i, args, c => assignParams rest (i + 1) args (c.set n (args.getD i Value.undef))

/-- The `withParams` context updater of `base.ts`: assigns each argument to
its named field, then either installs the derived read-only `arguments`
getter (when at least one name is declared) or stores the raw argument
array in `context.arguments`, and finally sets `context.self` when the
receiver is truthy. -/
def withParams (params : List String) : Value → Value → List Value → HookContext → HookContext :=
  fun self _fn args c =>
    let c1 := assignParams params 0 args c
    let c2 :=
      if params.length > 0 then defineGetter c1 "arguments" params
      else c1.set "arguments" (Value.varr args)
    if truthy self then c2.set "self" self else c2

/-- The `withDefaults` context updater of `base.ts`: for each key of the
defaults object, sets `context[key]` to the default value exactly when
`context[key] === undefined`. -/
def withDefaults (defaults : List (String × Value)) :
    Value → Value → List Value → HookContext → HookContext :=
  fun _self _fn _args c =>
    defaults.foldl (fun c kv => if isUndef (c.get kv.1) then c.set kv.1 kv.2 else c) c

/-- The `withProps` context updater of `base.ts`: unconditionally assigns
every key of the props object onto the context (`Object.assign`). -/
def withProps (props : List (String × Value)) :
    Value → Value → List Value → HookContext → HookContext :=
  fun _self _fn _args c =>
    props.foldl (fun c kv => c.set kv.1 kv.2) c

/-- A context with only plain data properties (the shape of every context
produced by the `HookContext` constructor, which merely `Object.assign`s
data onto the instance). -/
def dataOnly (c : HookContext) : Prop :=
  ∀ k ps, lookupKey k c.props ≠ some (PropVal.getter ps)

theorem lookupKey_updateKey_self {β : Type} (k : String) (v : β) (l : List (String × β)) :
    lookupKey k (updateKey k v l) = some v := by
  induction l with
  | nil => simp [lookupKey, updateKey]
  | cons hd tl ih =>
    by_cases h : k = hd.1
    · simp [lookupKey, updateKey, h]
    · simp [lookupKey, updateKey, h, ih]

theorem lookupKey_updateKey_ne {β : Type} {k k' : String} (h : k ≠ k') (v : β)
    (l : List (String × β)) : lookupKey k (updateKey k' v l) = lookupKey k l := by
  induction l with
  | nil => simp [lookupKey, updateKey, h]
  | cons hd tl ih =>
    by_cases h' : k' = hd.1
    · subst h'
      simp [lookupKey, updateKey, h]
    · by_cases h'' : k = hd.1 <;> simp [lookupKey, updateKey, h', h'', ih]

theorem set_props_of_not_getter {c : HookContext} {k : String}
    (h : ∀ ps, lookupKey k c.props ≠ some (PropVal.getter ps)) (v : Value) :
    (c.set k v).props = updateKey k (PropVal.data v) c.props := by
  unfold HookContext.set
  cases hc : lookupKey k c.props with
  | none => simp
  | some p =>
    cases p with
    | data w => simp
    | getter ps => exact absurd hc (h ps)

theorem lookup_set_self {c : HookContext} {k : String}
    (h : ∀ ps, lookupKey k c.props ≠ some (PropVal.getter ps)) (v : Value) :
    lookupKey k (c.set k v).props = some (PropVal.data v) := by
  rw [set_props_of_not_getter h, lookupKey_updateKey_self]

theorem lookup_set_ne (c : HookContext) {k k' : String} (h : k ≠ k') (v : Value) :
    lookupKey k (c.set k' v).props = lookupKey k c.props := by
  unfold HookContext.set
  cases hc : lookupKey k' c.props with
  | none => simpa using lookupKey_updateKey_ne h (PropVal.data v) c.props
  | some p =>
    cases p with
    | data w => simpa using lookupKey_updateKey_ne h (PropVal.data v) c.props
    | getter ps => simp

theorem lookup_defineGetter_self (c : HookContext) (k : String) (ps : List String) :
    lookupKey k (defineGetter c k ps).props = some (PropVal.getter ps) := by
  unfold defineGetter
  exact lookupKey_updateKey_self k (PropVal.getter ps) c.props

theorem lookup_defineGetter_ne (c : HookContext) {k k' : String} (h : k ≠ k')
    (ps : List String) : lookupKey k (defineGetter c k' ps).props = lookupKey k c.props := by
  unfold defineGetter
  exact lookupKey_updateKey_ne h (PropVal.getter ps) c.props

/-!
Registration and collection (`base.ts`).

Middleware functions themselves are opaque to the registration layer, so
the registry is polymorphic in the middleware type.  A registration target
carries the `HOOKS` symbol property, which is absent until the first
`registerMiddleware` call; `getMiddleware` additionally accepts a
null/undefined target (the `(target && target[HOOKS]) || []` guard).
-/

/-- A registration target: a function, object or prototype together with
its `HOOKS` symbol property (absent before the first registration). -/
structure Target (α : Type) where
  hooksProp : Option (List α)

/-- An unregistered target (no `HOOKS` property yet). -/
def freshTarget {α : Type} : Target α := { hooksProp := none }

/-- The `registerMiddleware` helper of `base.ts`: concatenates the new
middleware onto the target's current `HOOKS` list (or `[]` when absent). -/
def registerMiddleware {α : Type} (target : Target α) (middleware : List α) : Target α :=
  { hooksProp := some (target.hooksProp.getD [] ++ middleware) }

/-- The `getMiddleware` helper of `base.ts`:
`(target && target[HOOKS]) || []`. -/
def getMiddleware {α : Type} (target : Option (Target α)) : List α :=
  match target with
  | none => []
  | some t => t.hooksProp.getD []

/-- The `defaultCollectMiddleware` function of `base.ts`: spreads the
middleware registered on the receiver, then the middleware registered on
the callable. -/
def defaultCollectMiddleware {α : Type} (self fnTarget : Option (Target α))
    (_args : List Value) : List α :=
  getMiddleware self ++ getMiddleware fnTarget

theorem registerMiddleware_foldl {α : Type} (ls : List (List α)) (t : Target α) :
    (ls.foldl registerMiddleware t).hooksProp.getD [] = t.hooksProp.getD [] ++ ls.flatten := by
  induction ls generalizing t with
  | nil => simp
  | cons hd tl ih =>
    simp [List.foldl_cons, ih, registerMiddleware, List.append_assoc]

/-!
Object hooks (`object.ts`).

The composition engine's `functionHooks` (file `function.ts`) is not part
of the source snapshot; at registration time only two facts about it
matter: it produces a new callable member, and it receives the normalized
options with the method-specific context updater.  The hook-map branch of
`objectHooks` is modelled below; the plain-array branch simply delegates to
`registerMiddleware` and is not touched by the claims.

A context updater at the JavaScript level is a value that may be either an
actual function or an array of such values (`normalizeOptions` always
returns the array form).  Calling a non-function value raises a TypeError,
modelled as an `Except.error`.
-/

/-- A context-updater value as it exists at runtime: either a function or
an array of updater values.  Updater functions may themselves fail, so they
return `Except`. -/
inductive UpdaterVal where
  | fn (u : Value → Value → List Value → HookContext → Except String HookContext)
  | arr (us : List UpdaterVal)

/-- The `withParams` default packaged as a JavaScript function value. -/
def withParamsVal (params : List String) : UpdaterVal :=
  UpdaterVal.fn (fun self f args c => Except.ok (withParams params self f args c))

/-- Invoke a runtime value as a function, as the `originalContext(...)`
call site in `object.ts` does: an array is not callable and raises a
TypeError. -/
def callUpdaterVal : UpdaterVal → Value → Value → List Value → HookContext →
    Except String HookContext
  | UpdaterVal.fn u, self, f, args, c => u self f args c
  | UpdaterVal.arr _, _, _, _, _ => Except.error "originalContext is not a function"

/-- Hook settings as accepted by `objectHooks` for one method: either a
plain middleware array or a partial options object.  Middleware and
collector functions are identified by opaque ids, since registration never
runs them. -/
inductive HookSettings where
  | mwList (mws : List Nat)
  | opts (middleware : Option (List Nat)) (context : Option UpdaterVal) (collect : Option Nat)

/-- Normalized options (`FunctionHookOptions` in `base.ts`): `collect` is
`none` when the default collector applies. -/
structure FunctionHookOptions where
  middleware : List Nat
  context : UpdaterVal
  collect : Option Nat

/-- The `normalizeOptions` function of `base.ts`: a plain array becomes
`{ middleware: opts }`, missing fields get their defaults (`[]`,
`withParams()`, the default collector), and the context updater is wrapped
into an array unless it already is one. -/
def normalizeOptions (opts : HookSettings) : FunctionHookOptions :=
  let fields :=
    match opts with
    | HookSettings.mwList mws => (some mws, none, none)
    | HookSettings.opts mw ctx col => (mw, ctx, col)
  let context := (fields.2.1).getD (withParamsVal [])
  let contextUpdaters :=
    match context with
    | UpdaterVal.arr us => UpdaterVal.arr us
    | v => UpdaterVal.arr [v]
  { middleware := (fields.1).getD [], context := contextUpdaters, collect := fields.2.2 }

/-- The per-method context updater that `objectHooks` installs: it calls
the configured context value as a function and then sets `context.method`
to the method key. -/
def objectMethodContext (originalContext : UpdaterVal) (method : String) :
    Value → Value → List Value → HookContext → Except String HookContext :=
  fun self f args c =>
    (callUpdaterVal originalContext self f args c).map
      (fun ctx => ctx.set "method" (Value.vstr method))

/-- A member of the object being wrapped: a callable, a callable produced
by wrapping, or a plain non-callable value. -/
inductive Member where
  | func (id : Nat)
  | wrapped (orig : Member) (opts : FunctionHookOptions)
  | val (v : Value)

/-- The JavaScript test `typeof value === 'function'` on a member. -/
def isCallable : Member → Bool
  | Member.func _ => true
  | Member.wrapped _ _ => true
  | Member.val _ => false

/-- Modelled from the spec: `functionHooks` (file `function.ts`, absent
from the source snapshot) wraps a callable with the supplied normalized
options and returns the new callable; at registration time nothing is
invoked. -/
def functionHooks (value : Member) (opts : FunctionHookOptions) : Member :=
  Member.wrapped value opts

/-- The error `objectHooks` throws for a non-callable named property. -/
def errNotFunction (method : String) : String :=
  "Can not apply hooks. '" ++ method ++ "' is not a function"

/-- The hook-map branch of `objectHooks` (`object.ts`): for each key of the
hook map, in order, normalize the settings, build the method context
updater, verify the named property is a function (throwing the
configuration error otherwise, modelled as `Except.error`), and replace the
member with the wrapped function. -/
def objectHooks : List (String × Member) → List (String × HookSettings) →
    Except String (List (String × Member))
  | obj, [] => Except.ok obj
  | obj, (method, settings) :: rest =>
    let value := lookupKey method obj
    let options := normalizeOptions settings
    let context := objectMethodContext options.context method
    match value with
    | some m =>
      if isCallable m then
        objectHooks
          (updateKey method
            (functionHooks m { options with context := UpdaterVal.fn context }) obj)
          rest
      else Except.error (errNotFunction method)
    | none => Except.error (errNotFunction method)

/-!
The composition engine.

The sources of `compose.ts` and `function.ts` are not part of this
snapshot, so the composer below is modelled from the specification
document (sections 3, 4.1 and 7).  Execution is single-threaded and
cooperative, so the asynchronous chain is given its sequential denotation:
a middleware is a function from the current execution state and its
`proceed` continuation to a final state paired with an optional error
(the shared context is mutated even on the failure path, since it is
shared by reference).  The double-invocation guard is the per-invocation
position counter: a call of `proceed` for position `i` when the counter
has already reached `i` fails with the `ProtocolViolation` error.
-/

/-- An observable execution event: a middleware's before-section, its
after-section, or the terminal function's invocation. -/
inductive Event where
  | before (name : String)
  | after (name : String)
  | term : Event
deriving Repr, DecidableEq

/-- Modelled from the spec: the context fields the composer itself touches,
`result` (initially undefined) and `arguments` (the invocation arguments
the terminal function is spread over).  Middleware may mutate both. -/
structure CCtx where
  result : Value := Value.undef
  args : List Value := []

/-- The execution state of one invocation of a composed callable: the
shared mutable context, the trace of observed events, and the
double-invocation guard counter (highest chain position entered so far). -/
structure CState where
  ctx : CCtx
  trace : List Event := []
  index : Nat := 0

/-- An error as the composer sees it: either the composer's own protocol
violation or a domain failure thrown by a middleware or the terminal
function (an opaque JavaScript value, propagated by identity). -/
inductive JsError where
  | protocolViolation (msg : String)
  | js (v : Value)
deriving Repr

/-- The outcome of running part of the chain: the final state and an
optional uncaught error. -/
def MWResult : Type := CState × Option JsError

/-- Modelled from the spec: a middleware receives the execution state and
its zero-argument `proceed` suspension point, and produces the final state
of its activation plus an optional uncaught error. -/
def Middleware : Type := CState → (CState → MWResult) → MWResult

/-- Modelled from the spec: the terminal function, a possibly-failing
function of the invocation arguments. -/
def Terminal : Type := List Value → Except JsError Value

/-- The mandated message of the double-invocation protocol violation. -/
def protocolViolationMsg : String := "next() called multiple times"

/-- The protocol-violation error value. -/
def protoErr : JsError := JsError.protocolViolation protocolViolationMsg

/-- Modelled from the spec: the terminal function's return value is stored
in `context.result` unless a middleware already set `result` to a
non-undefined value beforehand. -/
def setResult (v : Value) (c : CCtx) : CCtx :=
  if isUndef c.result then { c with result := v } else c

/-- Modelled from the spec: invoking the terminal function with the
context's arguments; the event is recorded, the result stored (see
`setResult`), a failure is propagated unchanged. -/
def runTerminal (t : Terminal) (s : CState) : MWResult :=
  let s1 := { s with trace := s.trace ++ [Event.term] }
  match t s1.ctx.args with
  | Except.ok v => ({ s1 with ctx := setResult v s1.ctx }, none)
  | Except.error e => (s1, some e)

/-- Modelled from the spec: the dispatcher of the composed callable.
Position `i` (starting at 1) runs the i-th remaining middleware, or the
terminal function when none remain; entering a position at most equal to
the guard counter is the second `proceed` call of some activation and
fails with the protocol violation. -/
def dispatch (t : Terminal) : List Middleware → Nat → CState → MWResult
  | [], i, s =>
    if i ≤ s.index then (s, some protoErr)
    else runTerminal t { s with index := i }
  | mw :: rest, i, s =>
    if i ≤ s.index then (s, some protoErr)
    else mw { s with index := i } (dispatch t rest (i + 1))

/-- Modelled from the spec: `compose(middleware, terminal)` applied to a
fresh per-invocation state built from the context. -/
def composed (mws : List Middleware) (t : Terminal) (c : CCtx) : MWResult :=
  dispatch t mws 1 { ctx := c, trace := [], index := 0 }

/-- The event trace observed by one invocation of the composed callable. -/
def composedTrace (mws : List Middleware) (t : Terminal) (c : CCtx) : List Event :=
  (composed mws t c).1.trace

/-- The outcome of the composed callable in its call-compatible mode: the
final `context.result` on success, the uncaught error otherwise. -/
def composedResult (mws : List Middleware) (t : Terminal) (c : CCtx) : Except JsError Value :=
  match composed mws t c with
  | (s, none) => Except.ok s.ctx.result
  | (_, some e) => Except.error e

/-!
Instrumented middleware shapes.

The spec describes a middleware as able to run code before `proceed`,
after it, instead of it, or wrap it in a failure-handling scope.  Each
shape below records its observable events in the trace and otherwise
manipulates the shared context through an arbitrary function, which also
subsumes any number of intermediate suspensions (cooperative suspension on
an eventually-settling operation has no other observable effect in the
single-threaded model).
-/

/-- A conventional middleware: a before-section (event plus arbitrary
context mutation), exactly one `proceed`, and on success an after-section
(arbitrary context mutation plus event); an error from `proceed`
propagates unchanged and skips the after-section. -/
structure BA where
  name : String
  bpre : CCtx → CCtx
  bpost : CCtx → CCtx

/-- The middleware denoted by a `BA` description. -/
def BA.mw (m : BA) : Middleware :=
  fun s proceed =>
    match proceed { s with trace := s.trace ++ [Event.before m.name], ctx := m.bpre s.ctx } with
    | (s2, none) => ({ s2 with trace := s2.trace ++ [Event.after m.name], ctx := m.bpost s2.ctx }, none)
    | r => r

/-- An event-only middleware: before and after sections that do not touch
the context. -/
def evtMW (name : String) : BA := { name := name, bpre := id, bpost := id }

/-- A short-circuiting middleware: runs its before-section and returns
without ever calling `proceed`. -/
def ShortMW (name : String) (act : CCtx → CCtx) : Middleware :=
  fun s _proceed => ({ s with trace := s.trace ++ [Event.before name], ctx := act s.ctx }, none)

/-- A misbehaving middleware that calls `proceed` a second time after the
first call succeeds. -/
def TwiceMW (name : String) : Middleware :=
  fun s proceed =>
    match proceed { s with trace := s.trace ++ [Event.before name] } with
    | (s1, none) => proceed s1
    | r => r

/-- A middleware that throws instead of calling `proceed`. -/
def ThrowMW (name : String) (e : JsError) : Middleware :=
  fun s _proceed => ({ s with trace := s.trace ++ [Event.before name] }, some e)

/-- A recovering middleware: wraps `proceed` in a failure-handling scope;
on failure it runs the handler on the context and resolves. -/
def CatchMW (name : String) (handle : JsError → CCtx → CCtx) : Middleware :=
  fun s proceed =>
    match proceed { s with trace := s.trace ++ [Event.before name] } with
    | (s1, some e) => ({ s1 with ctx := handle e s1.ctx }, none)
    | r => r

/-- The before-sections' context effect of a list of `BA` middleware, in
registration order. -/
def foldPre (ms : List BA) (c : CCtx) : CCtx := ms.foldl (fun c m => m.bpre c) c

/-- The after-sections' context effect of a list of `BA` middleware, in
reverse (unwinding) order. -/
def foldPost (ms : List BA) (c : CCtx) : CCtx := ms.foldr (fun m c => m.bpost c) c

/-- The before-events of a list of `BA` middleware, in registration
order. -/
def befores (ms : List BA) : List Event := ms.map (fun m => Event.before m.name)

/-- The after-events of a list of `BA` middleware, in unwinding order. -/
def afterEvents (ms : List BA) : List Event := ms.reverse.map (fun m => Event.after m.name)

/-- A terminal function that returns normally. -/
def okT (f : List Value → Value) : Terminal := fun args => Except.ok (f args)

/-- A terminal function that throws. -/
def failT (e : JsError) : Terminal := fun _ => Except.error e

theorem dispatch_guard (t : Terminal) (l : List Middleware) (i : Nat) (s : CState)
    (h : i ≤ s.index) : dispatch t l i s = (s, some protoErr) := by
  cases l <;> simp [dispatch, h]

theorem BA.mw_apply (m : BA) (s : CState) (proceed : CState → MWResult) :
    BA.mw m s proceed =
      match proceed { s with trace := s.trace ++ [Event.before m.name], ctx := m.bpre s.ctx } with
      | (s2, none) =>
        ({ s2 with trace := s2.trace ++ [Event.after m.name], ctx := m.bpost s2.ctx }, none)
      | r => r := rfl

theorem dispatch_BA_okT (f : List Value → Value) (ms : List BA) :
    ∀ (i : Nat) (s : CState), s.index < i →
    dispatch (okT f) (ms.map BA.mw) i s =
      ({ ctx := foldPost ms (setResult (f (foldPre ms s.ctx).args) (foldPre ms s.ctx)),
         trace := s.trace ++ befores ms ++ [Event.term] ++ afterEvents ms,
         index := i + ms.length }, none) := by
  induction ms with
  | nil =>
    intro i s h
    simp [dispatch, Nat.not_le.mpr h, runTerminal, okT, foldPre, foldPost, befores, afterEvents]
  | cons m tl ih =>
    intro i s h
    simp only [List.map_cons, dispatch]
    rw [if_neg (Nat.not_le.mpr h)]
    rw [BA.mw_apply]
    have hin := ih (i + 1)
      { ctx := m.bpre s.ctx, trace := s.trace ++ [Event.before m.name], index := i }
      (Nat.lt_succ_self i)
    rw [hin]
    have harith : i + 1 + tl.length = i + (tl.length + 1) := by omega
    simp [foldPre, foldPost, befores, afterEvents, List.append_assoc, harith]

theorem TwiceMW_apply (w : String) (s : CState) (proceed : CState → MWResult) :
    TwiceMW w s proceed =
      match proceed { s with trace := s.trace ++ [Event.before w] } with
      | (s1, none) => proceed s1
      | r => r := rfl

theorem CatchMW_apply (w : String) (handle : JsError → CCtx → CCtx) (s : CState)
    (proceed : CState → MWResult) :
    CatchMW w handle s proceed =
      match proceed { s with trace := s.trace ++ [Event.before w] } with
      | (s1, some e) => ({ s1 with ctx := handle e s1.ctx }, none)
      | r => r := rfl

theorem dispatch_BA_failT (e : JsError) (ms : List BA) :
    ∀ (i : Nat) (s : CState), s.index < i →
    dispatch (failT e) (ms.map BA.mw) i s =
      ({ ctx := foldPre ms s.ctx,
         trace := s.trace ++ befores ms ++ [Event.term],
         index := i + ms.length }, some e) := by
  induction ms with
  | nil =>
    intro i s h
    simp [dispatch, Nat.not_le.mpr h, runTerminal, failT, foldPre, befores]
  | cons m tl ih =>
    intro i s h
    simp only [List.map_cons, dispatch]
    rw [if_neg (Nat.not_le.mpr h)]
    rw [BA.mw_apply]
    have hin := ih (i + 1)
      { ctx := m.bpre s.ctx, trace := s.trace ++ [Event.before m.name], index := i }
      (Nat.lt_succ_self i)
    rw [hin]
    have harith : i + 1 + tl.length = i + (tl.length + 1) := by omega
    simp [foldPre, befores, List.append_assoc, harith]

theorem dispatch_BA_short (t : Terminal) (w : String) (act : CCtx → CCtx)
    (post : List Middleware) (ms : List BA) :
    ∀ (i : Nat) (s : CState), s.index < i →
    dispatch t (ms.map BA.mw ++ ShortMW w act :: post) i s =
      ({ ctx := foldPost ms (act (foldPre ms s.ctx)),
         trace := s.trace ++ befores ms ++ [Event.before w] ++ afterEvents ms,
         index := i + ms.length }, none) := by
  induction ms with
  | nil =>
    intro i s h
    simp [dispatch, Nat.not_le.mpr h, ShortMW, foldPre, foldPost, befores, afterEvents]
  | cons m tl ih =>
    intro i s h
    simp only [List.map_cons, List.cons_append, List.append_eq, dispatch]
    rw [if_neg (Nat.not_le.mpr h)]
    rw [BA.mw_apply]
    have hin := ih (i + 1)
      { ctx := m.bpre s.ctx, trace := s.trace ++ [Event.before m.name], index := i }
      (Nat.lt_succ_self i)
    rw [hin]
    have harith : i + 1 + tl.length = i + (tl.length + 1) := by omega
    simp [foldPre, foldPost, befores, afterEvents, List.append_assoc, harith]

theorem dispatch_BA_throw (t : Terminal) (w : String) (e : JsError)
    (post : List Middleware) (ms : List BA) :
    ∀ (i : Nat) (s : CState), s.index < i →
    dispatch t (ms.map BA.mw ++ ThrowMW w e :: post) i s =
      ({ ctx := foldPre ms s.ctx,
         trace := s.trace ++ befores ms ++ [Event.before w],
         index := i + ms.length }, some e) := by
  induction ms with
  | nil =>
    intro i s h
    simp [dispatch, Nat.not_le.mpr h, ThrowMW, foldPre, befores]
  | cons m tl ih =>
    intro i s h
    simp only [List.map_cons, List.cons_append, List.append_eq, dispatch]
    rw [if_neg (Nat.not_le.mpr h)]
    rw [BA.mw_apply]
    have hin := ih (i + 1)
      { ctx := m.bpre s.ctx, trace := s.trace ++ [Event.before m.name], index := i }
      (Nat.lt_succ_self i)
    rw [hin]
    have harith : i + 1 + tl.length = i + (tl.length + 1) := by omega
    simp [foldPre, befores, List.append_assoc, harith]

theorem dispatch_BA_catch (e : JsError) (w : String) (handle : JsError → CCtx → CCtx)
    (tl : List BA) (ms : List BA) :
    ∀ (i : Nat) (s : CState), s.index < i →
    dispatch (failT e) (ms.map BA.mw ++ CatchMW w handle :: tl.map BA.mw) i s =
      ({ ctx := foldPost ms (handle e (foldPre tl (foldPre ms s.ctx))),
         trace := s.trace ++ befores ms ++ [Event.before w] ++ befores tl ++ [Event.term]
           ++ afterEvents ms,
         index := i + ms.length + 1 + tl.length }, none) := by
  induction ms with
  | nil =>
    intro i s h
    simp only [List.map_nil, List.nil_append, dispatch]
    rw [if_neg (Nat.not_le.mpr h)]
    rw [CatchMW_apply]
    have hin := dispatch_BA_failT e tl (i + 1)
      { ctx := s.ctx, trace := s.trace ++ [Event.before w], index := i }
      (Nat.lt_succ_self i)
    rw [hin]
    simp [foldPre, foldPost, befores, afterEvents, List.append_assoc]
  | cons m tl' ih =>
    intro i s h
    simp only [List.map_cons, List.cons_append, List.append_eq, dispatch]
    rw [if_neg (Nat.not_le.mpr h)]
    rw [BA.mw_apply]
    have hin := ih (i + 1)
      { ctx := m.bpre s.ctx, trace := s.trace ++ [Event.before m.name], index := i }
      (Nat.lt_succ_self i)
    rw [hin]
    have harith : i + 1 + tl'.length + 1 + tl.length = i + (tl'.length + 1) + 1 + tl.length := by
      omega
    simp [foldPre, foldPost, befores, afterEvents, List.append_assoc, harith]

theorem dispatch_BA_twice (f : List Value → Value) (w : String)
    (tl : List BA) (ms : List BA) :
    ∀ (i : Nat) (s : CState), s.index < i →
    dispatch (okT f) (ms.map BA.mw ++ TwiceMW w :: tl.map BA.mw) i s =
      ({ ctx := foldPost tl (setResult (f (foldPre tl (foldPre ms s.ctx)).args)
           (foldPre tl (foldPre ms s.ctx))),
         trace := s.trace ++ befores ms ++ [Event.before w] ++ befores tl ++ [Event.term]
           ++ afterEvents tl,
         index := i + ms.length + 1 + tl.length }, some protoErr) := by
  induction ms with
  | nil =>
    intro i s h
    simp only [List.map_nil, List.nil_append, dispatch]
    rw [if_neg (Nat.not_le.mpr h)]
    rw [TwiceMW_apply]
    have hin := dispatch_BA_okT f tl (i + 1)
      { ctx := s.ctx, trace := s.trace ++ [Event.before w], index := i }
      (Nat.lt_succ_self i)
    rw [hin]
    have hguard := dispatch_guard (okT f) (tl.map BA.mw) (i + 1)
      { ctx := foldPost tl (setResult
          (f (foldPre tl ({ ctx := s.ctx, trace := s.trace ++ [Event.before w], index := i } : CState).ctx).args)
          (foldPre tl ({ ctx := s.ctx, trace := s.trace ++ [Event.before w], index := i } : CState).ctx)),
        trace := ({ ctx := s.ctx, trace := s.trace ++ [Event.before w], index := i } : CState).trace
          ++ befores tl ++ [Event.term] ++ afterEvents tl,
        index := i + 1 + tl.length }
      (by simp)
    simp only []
    rw [hguard]
    simp [foldPre, foldPost, befores, afterEvents, List.append_assoc]
  | cons m tl' ih =>
    intro i s h
    simp only [List.map_cons, List.cons_append, List.append_eq, dispatch]
    rw [if_neg (Nat.not_le.mpr h)]
    rw [BA.mw_apply]
    have hin := ih (i + 1)
      { ctx := m.bpre s.ctx, trace := s.trace ++ [Event.before m.name], index := i }
      (Nat.lt_succ_self i)
    rw [hin]
    have harith : i + 1 + tl'.length + 1 + tl.length = i + (tl'.length + 1) + 1 + tl.length := by
      omega
    simp [foldPre, foldPost, befores, afterEvents, List.append_assoc, harith]

theorem foldPost_result (ms : List BA) :
    (∀ m ∈ ms, ∀ x : CCtx, (m.bpost x).result = x.result) →
    ∀ c : CCtx, (foldPost ms c).result = c.result := by
  induction ms with
  | nil => intro _ c; rfl
  | cons m tl ih =>
    intro h c
    have h1 := h m (List.mem_cons_self m tl)
    have h2 : ∀ m' ∈ tl, ∀ x : CCtx, (m'.bpost x).result = x.result :=
      fun m' hm' => h m' (List.mem_cons_of_mem m hm')
    show (m.bpost (foldPost tl c)).result = c.result
    rw [h1, ih h2]

theorem count_term_befores (ms : List BA) : (befores ms).count Event.term = 0 := by
  apply List.count_eq_zero.mpr
  simp [befores]

theorem count_term_afterEvents (ms : List BA) : (afterEvents ms).count Event.term = 0 := by
  apply List.count_eq_zero.mpr
  simp [afterEvents]

/-- Claim C1: for every middleware sequence A, B, C (with arbitrary
before- and after-section context effects, which also covers any number of
internal suspensions) around a normally-returning terminal T, the observed
event sequence of the composed callable is exactly A-before, B-before,
C-before, T, C-after, B-after, A-after. -/
theorem claim_C1 (a b c : String) (pa qa pb qb pc qc : CCtx → CCtx)
    (f : List Value → Value) (c0 : CCtx) :
    composedTrace [BA.mw ⟨a, pa, qa⟩, BA.mw ⟨b, pb, qb⟩, BA.mw ⟨c, pc, qc⟩] (okT f) c0 =
      [Event.before a, Event.before b, Event.before c, Event.term,
       Event.after c, Event.after b, Event.after a] := by
  have h := dispatch_BA_okT f [⟨a, pa, qa⟩, ⟨b, pb, qb⟩, ⟨c, pc, qc⟩] 1
    { ctx := c0, trace := [], index := 0 } Nat.one_pos
  unfold composedTrace composed
  rw [show ([BA.mw ⟨a, pa, qa⟩, BA.mw ⟨b, pb, qb⟩, BA.mw ⟨c, pc, qc⟩] : List Middleware) =
      ([⟨a, pa, qa⟩, ⟨b, pb, qb⟩, ⟨c, pc, qc⟩] : List BA).map BA.mw from rfl]
  rw [h]
  simp [befores, afterEvents]

/-- Claim C2: if a middleware returns without calling proceed, no later
middleware (here: an arbitrary suffix) and no terminal function (here:
arbitrary) executes — the trace and the outcome do not depend on either —
and the composed callable resolves to the value `context.result` held when
that middleware returned (the enclosing after-sections being assumed not to
overwrite `result`). -/
theorem claim_C2 (ms : List BA) (w : String) (act : CCtx → CCtx)
    (post : List Middleware) (t : Terminal) (c0 : CCtx)
    (h : ∀ m ∈ ms, ∀ x : CCtx, (m.bpost x).result = x.result) :
    composedTrace (ms.map BA.mw ++ ShortMW w act :: post) t c0 =
      befores ms ++ [Event.before w] ++ afterEvents ms ∧
    composedResult (ms.map BA.mw ++ ShortMW w act :: post) t c0 =
      Except.ok (act (foldPre ms c0)).result := by
  have hd := dispatch_BA_short t w act post ms 1
    { ctx := c0, trace := [], index := 0 } Nat.one_pos
  constructor
  · unfold composedTrace composed
    rw [hd]
    simp
  · unfold composedResult composed
    rw [hd]
    simp [foldPost_result ms h]

/-- Witness for claim C2 at a concrete chain: prefix A, short-circuiting
middleware B setting `result := 5`, and a suffix middleware that would
throw if it ever ran; the suffix and the terminal are skipped and the
result is 5. -/
theorem claim_C2_witness :
    composedTrace ([evtMW "A"].map BA.mw ++
        ShortMW "B" (fun c => { c with result := Value.vnum 5 }) ::
        [ThrowMW "C" (JsError.js Value.vnull)]) (okT (fun _ => Value.vnum 7)) {} =
      [Event.before "A", Event.before "B", Event.after "A"] ∧
    composedResult ([evtMW "A"].map BA.mw ++
        ShortMW "B" (fun c => { c with result := Value.vnum 5 }) ::
        [ThrowMW "C" (JsError.js Value.vnull)]) (okT (fun _ => Value.vnum 7)) {} =
      Except.ok (Value.vnum 5) := by
  have h := claim_C2 [evtMW "A"] "B" (fun c => { c with result := Value.vnum 5 })
    [ThrowMW "C" (JsError.js Value.vnull)] (okT (fun _ => Value.vnum 7)) {}
    (by
      intro m hm x
      rw [List.mem_singleton] at hm
      subst hm
      rfl)
  simpa [befores, afterEvents, evtMW, foldPre] using h

/-- Claim C3: a middleware calling proceed a second time makes the
composed callable fail with the ProtocolViolation error whose message is
"next() called multiple times", and the terminal function runs at most
once in the invocation. -/
theorem claim_C3 (ms tl : List BA) (w : String) (f : List Value → Value) (c0 : CCtx) :
    composedResult (ms.map BA.mw ++ TwiceMW w :: tl.map BA.mw) (okT f) c0 =
      Except.error (JsError.protocolViolation "next() called multiple times") ∧
    (composedTrace (ms.map BA.mw ++ TwiceMW w :: tl.map BA.mw) (okT f) c0).count Event.term ≤ 1 := by
  have hd := dispatch_BA_twice f w tl ms 1 { ctx := c0, trace := [], index := 0 } Nat.one_pos
  constructor
  · unfold composedResult composed
    rw [hd]
    rfl
  · unfold composedTrace composed
    rw [hd]
    simp [List.count_append, count_term_befores, count_term_afterEvents]

/-- Claim C4: an error thrown by the terminal function or by any
middleware, with no enclosing failure-handling scope, rejects the composed
callable with that same error, unchanged; with an enclosing middleware
that catches around its proceed call, the composed callable instead
resolves with the result that middleware's handler stores in
`context.result` (the further-enclosing after-sections being assumed not
to overwrite `result`). -/
theorem claim_C4 :
    (∀ (ms : List BA) (e : JsError) (c0 : CCtx),
      composedResult (ms.map BA.mw) (failT e) c0 = Except.error e) ∧
    (∀ (ms : List BA) (w : String) (e : JsError) (post : List Middleware)
      (t : Terminal) (c0 : CCtx),
      composedResult (ms.map BA.mw ++ ThrowMW w e :: post) t c0 = Except.error e) ∧
    (∀ (ms tl : List BA) (w : String) (handle : JsError → CCtx → CCtx)
      (e : JsError) (c0 : CCtx),
      (∀ m ∈ ms, ∀ x : CCtx, (m.bpost x).result = x.result) →
      composedResult (ms.map BA.mw ++ CatchMW w handle :: tl.map BA.mw) (failT e) c0 =
        Except.ok (handle e (foldPre tl (foldPre ms c0))).result) := by
  refine ⟨?_, ?_, ?_⟩
  · intro ms e c0
    have hd := dispatch_BA_failT e ms 1 { ctx := c0, trace := [], index := 0 } Nat.one_pos
    unfold composedResult composed
    rw [hd]
  · intro ms w e post t c0
    have hd := dispatch_BA_throw t w e post ms 1 { ctx := c0, trace := [], index := 0 } Nat.one_pos
    unfold composedResult composed
    rw [hd]
  · intro ms tl w handle e c0 h
    have hd := dispatch_BA_catch e w handle tl ms 1 { ctx := c0, trace := [], index := 0 } Nat.one_pos
    unfold composedResult composed
    rw [hd]
    simp [foldPost_result ms h]

/-- Witness for claim C4 at a concrete chain: middleware A wraps a
catching middleware B, middleware C sits inside, the terminal throws the
string error "boom", and B's handler stores 9 in the result; the composed
callable resolves to 9. -/
theorem claim_C4_witness :
    composedResult ([evtMW "A"].map BA.mw ++
        CatchMW "B" (fun _ c => { c with result := Value.vnum 9 }) :: [evtMW "C"].map BA.mw)
      (failT (JsError.js (Value.vstr "boom"))) {} = Except.ok (Value.vnum 9) := by
  have h := claim_C4.2.2 [evtMW "A"] [evtMW "C"] "B"
    (fun _ c => { c with result := Value.vnum 9 }) (JsError.js (Value.vstr "boom")) {}
    (by
      intro m hm x
      rw [List.mem_singleton] at hm
      subst hm
      rfl)
  simpa [foldPre, evtMW] using h

/-- Claim C7: the default middleware collector returns exactly the
middleware registered on the receiver followed by the middleware
registered on the callable, each sub-sequence in its registration order
(successive registrations append by concatenation), so receiver-level
middleware come first. -/
theorem claim_C7 {α : Type} (ls1 ls2 : List (List α)) (t1 t2 : Target α) (args : List Value) :
    defaultCollectMiddleware (some (ls1.foldl registerMiddleware t1))
      (some (ls2.foldl registerMiddleware t2)) args =
      (getMiddleware (some t1) ++ ls1.flatten) ++ (getMiddleware (some t2) ++ ls2.flatten) := by
  simp [defaultCollectMiddleware, getMiddleware, registerMiddleware_foldl]

theorem objectHooks_error_aux (method : String) (s : HookSettings)
    (post : List (String × HookSettings)) (pre1 : List (String × HookSettings)) :
    ∀ obj : List (String × Member),
    (∀ p ∈ pre1, ∃ m, lookupKey p.1 obj = some m ∧ isCallable m = true) →
    (∀ m, lookupKey method obj = some m → isCallable m = false) →
    objectHooks obj (pre1 ++ (method, s) :: post) = Except.error (errNotFunction method) := by
  induction pre1 with
  | nil =>
    intro obj _ h2
    cases hm : lookupKey method obj with
    | none => simp [objectHooks, hm]
    | some m => simp [objectHooks, hm, h2 m hm]
  | cons p pre' ih =>
    intro obj h1 h2
    obtain ⟨pk, ps⟩ := p
    obtain ⟨m0, hm0, hc0⟩ := h1 (pk, ps) (List.mem_cons_self _ _)
    rw [List.cons_append]
    simp only [objectHooks]
    rw [hm0]
    simp only [hc0, if_pos]
    apply ih
    · intro q hq
      by_cases hqk : q.1 = pk
      · refine ⟨functionHooks m0
          { normalizeOptions ps with
            context := UpdaterVal.fn (objectMethodContext (normalizeOptions ps).context pk) }, ?_, rfl⟩
        rw [hqk]
        exact lookupKey_updateKey_self _ _ _
      · obtain ⟨m, hm, hc⟩ := h1 q (List.mem_cons_of_mem _ hq)
        exact ⟨m, by rw [lookupKey_updateKey_ne hqk, hm], hc⟩
    · intro m hm
      by_cases hmk : method = pk
      · exfalso
        rw [hmk] at h2
        exact absurd hc0 (by simp [h2 m0 hm0])
      · rw [lookupKey_updateKey_ne hmk] at hm
        exact h2 m hm

/-- Claim C6: if the hook map names a method whose property on the object
is not a function (all earlier keys of the map being wrappable), then
`objectHooks` fails at registration time with the descriptive
configuration error — registration returns no wrapped object, so no
invocation of a wrapped method can have occurred. -/
theorem claim_C6 (obj : List (String × Member)) (pre1 post : List (String × HookSettings))
    (method : String) (s : HookSettings)
    (h1 : ∀ p ∈ pre1, ∃ m, lookupKey p.1 obj = some m ∧ isCallable m = true)
    (h2 : ∀ m, lookupKey method obj = some m → isCallable m = false) :
    objectHooks obj (pre1 ++ (method, s) :: post) = Except.error (errNotFunction method) :=
  objectHooks_error_aux method s post pre1 obj h1 h2

/-- Witness for claim C6: registering a hook map for method "x" on an
object whose "x" property is undefined fails with the configuration
error. -/
theorem claim_C6_witness :
    objectHooks [("x", Member.val Value.undef)] [("x", HookSettings.mwList [])] =
      Except.error "Can not apply hooks. 'x' is not a function" := by
  have h := claim_C6 [("x", Member.val Value.undef)] [] [] "x" (HookSettings.mwList [])
    (by intro p hp; exact absurd hp (List.not_mem_nil p))
    (by
      intro m hm
      simp [lookupKey] at hm
      rw [← hm]
      rfl)
  simpa [errNotFunction] using h

/-- Claim C10 (refuted as stated, proving what the code actually does):
the context updater installed by `objectHooks` calls the configured
context value as a function, but `normalizeOptions` always returns the
updater array, so the installed updater fails with a TypeError on every
invocation instead of applying the configured updater and setting
`context.method`. -/
theorem claim_C10 (s : HookSettings) (method : String) (self fv : Value)
    (args : List Value) (c : HookContext) :
    objectMethodContext (normalizeOptions s).context method self fv args c =
      Except.error "originalContext is not a function" := by
  cases s with
  | mwList mws => rfl
  | opts mw ctxOpt col =>
    cases ctxOpt with
    | none => rfl
    | some uv =>
      cases uv with
      | fn u => rfl
      | arr us => rfl

theorem lookup_of_get_undef {c : HookContext} {k : String} (h : c.get k = Value.undef) :
    lookupKey k c.props = some (PropVal.data Value.undef) ∨ lookupKey k c.props = none := by
  unfold HookContext.get at h
  cases hc : lookupKey k c.props with
  | none => right; rfl
  | some p =>
    cases p with
    | data v =>
      left
      rw [hc] at h
      simp at h
      rw [h]
    | getter ps =>
      rw [hc] at h
      simp at h

theorem withDefaults_lookup_notin (s f : Value) (a : List Value) (ds : List (String × Value)) :
    ∀ (c : HookContext) (k : String), k ∉ ds.map Prod.fst →
    lookupKey k (withDefaults ds s f a c).props = lookupKey k c.props := by
  induction ds with
  | nil => intro c k _; rfl
  | cons kv tl ih =>
    intro c k hk
    simp only [List.map_cons, List.mem_cons] at hk
    push_neg at hk
    show lookupKey k
      (withDefaults tl s f a (if isUndef (c.get kv.1) then c.set kv.1 kv.2 else c)).props = _
    rw [ih _ k hk.2]
    by_cases h : isUndef (c.get kv.1)
    · rw [if_pos h, lookup_set_ne c hk.1 kv.2]
    · rw [if_neg h]

theorem withDefaults_keep_data (s f : Value) (a : List Value) (ds : List (String × Value)) :
    ∀ (c : HookContext) (k : String) (v0 : Value),
    lookupKey k c.props = some (PropVal.data v0) → v0 ≠ Value.undef →
    lookupKey k (withDefaults ds s f a c).props = some (PropVal.data v0) := by
  induction ds with
  | nil => intro c k v0 hl _; exact hl
  | cons kv tl ih =>
    intro c k v0 hl hv
    show lookupKey k
      (withDefaults tl s f a (if isUndef (c.get kv.1) then c.set kv.1 kv.2 else c)).props = _
    by_cases hk : k = kv.1
    · have hget : c.get kv.1 = v0 := by
        unfold HookContext.get
        rw [← hk, hl]
      have hiu : isUndef (c.get kv.1) = false := by
        rw [hget]
        cases v0 with
        | undef => exact absurd rfl hv
        | vnull => rfl
        | vbool b => rfl
        | vnum n => rfl
        | vstr t => rfl
        | varr l => rfl
      rw [hiu]
      simp only [if_neg Bool.false_ne_true]
      exact ih c k v0 hl hv
    · by_cases h : isUndef (c.get kv.1)
      · rw [if_pos h]
        exact ih _ k v0 (by rw [lookup_set_ne c hk kv.2]; exact hl) hv
      · rw [if_neg h]
        exact ih c k v0 hl hv

theorem withDefaults_keep_getter (s f : Value) (a : List Value) (ds : List (String × Value)) :
    ∀ (c : HookContext) (k : String) (ps : List String),
    lookupKey k c.props = some (PropVal.getter ps) →
    lookupKey k (withDefaults ds s f a c).props = some (PropVal.getter ps) := by
  induction ds with
  | nil => intro c k ps hl; exact hl
  | cons kv tl ih =>
    obtain ⟨k0, v0⟩ := kv
    intro c k ps hl
    show lookupKey k
      (withDefaults tl s f a (if isUndef (c.get k0) then c.set k0 v0 else c)).props = _
    by_cases hk : k = k0
    · have hget : c.get k0 = Value.varr (ps.map (fun p => dataVal c p)) := by
        unfold HookContext.get
        rw [← hk, hl]
      have hiu : isUndef (c.get k0) = false := by rw [hget]; rfl
      rw [hiu]
      simp only [if_neg Bool.false_ne_true]
      exact ih c k ps hl
    · by_cases h : isUndef (c.get k0)
      · rw [if_pos h]
        exact ih _ k ps (by rw [lookup_set_ne c hk v0]; exact hl)
      · rw [if_neg h]
        exact ih c k ps hl

theorem withDefaults_fill (s f : Value) (a : List Value) (ds : List (String × Value)) :
    ∀ (c : HookContext) (k : String) (dv : Value),
    (ds.map Prod.fst).Nodup →
    c.get k = Value.undef → lookupKey k ds = some dv →
    lookupKey k (withDefaults ds s f a c).props = some (PropVal.data dv) := by
  induction ds with
  | nil => intro c k dv _ _ hds; exact absurd hds (by simp [lookupKey])
  | cons kv tl ih =>
    obtain ⟨k0, v0⟩ := kv
    intro c k dv hnd hu hds
    show lookupKey k
      (withDefaults tl s f a (if isUndef (c.get k0) then c.set k0 v0 else c)).props = _
    by_cases hk : k = k0
    · subst hk
      have hdv : dv = v0 := by
        unfold lookupKey at hds
        rw [if_pos rfl] at hds
        exact (Option.some_inj.mp hds).symm
      have hiu : isUndef (c.get k) = true := by rw [hu]; rfl
      rw [hiu]
      simp only [if_pos]
      have hng : ∀ ps, lookupKey k c.props ≠ some (PropVal.getter ps) := by
        intro ps hgl
        rcases lookup_of_get_undef hu with hcase | hcase <;> rw [hcase] at hgl <;> simp at hgl
      have hset : lookupKey k (c.set k v0).props = some (PropVal.data v0) :=
        lookup_set_self hng v0
      have hknotin : k ∉ tl.map Prod.fst := by
        simp only [List.map_cons, List.nodup_cons] at hnd
        exact hnd.1
      rw [withDefaults_lookup_notin s f a tl _ k hknotin, hset, hdv]
    · have htl : lookupKey k tl = some dv := by
        unfold lookupKey at hds
        rw [if_neg hk] at hds
        exact hds
      have hnd' : (tl.map Prod.fst).Nodup := by
        simp only [List.map_cons, List.nodup_cons] at hnd
        exact hnd.2
      by_cases h : isUndef (c.get k0)
      · rw [if_pos h]
        apply ih _ k dv hnd' _ htl
        unfold HookContext.get
        rcases lookup_of_get_undef hu with hcase | hcase <;>
          rw [lookup_set_ne c hk v0, hcase]
      · rw [if_neg h]
        exact ih c k dv hnd' hu htl

/-- Claim C9: the updater produced by withDefaults sets exactly those
context fields that currently read as undefined (filling them with the
corresponding default), leaves every data field holding a non-undefined
value unchanged, leaves keys outside the defaults object untouched, and
never replaces an accessor property's descriptor. -/
theorem claim_C9 (ds : List (String × Value)) (s f : Value) (a : List Value)
    (c : HookContext) (k : String) (hnd : (ds.map Prod.fst).Nodup) :
    (∀ v0, lookupKey k c.props = some (PropVal.data v0) → v0 ≠ Value.undef →
      lookupKey k (withDefaults ds s f a c).props = some (PropVal.data v0)) ∧
    (∀ dv, c.get k = Value.undef → lookupKey k ds = some dv →
      lookupKey k (withDefaults ds s f a c).props = some (PropVal.data dv)) ∧
    (k ∉ ds.map Prod.fst →
      lookupKey k (withDefaults ds s f a c).props = lookupKey k c.props) ∧
    (∀ ps, lookupKey k c.props = some (PropVal.getter ps) →
      lookupKey k (withDefaults ds s f a c).props = some (PropVal.getter ps)) :=
  ⟨fun v0 hl hv => withDefaults_keep_data s f a ds c k v0 hl hv,
   fun dv hu hds => withDefaults_fill s f a ds c k dv hnd hu hds,
   fun hk => withDefaults_lookup_notin s f a ds c k hk,
   fun ps hl => withDefaults_keep_getter s f a ds c k ps hl⟩

/-- Witness for claim C9: on a context where "x" holds a string and "y" is
undefined, the defaults object fills "y" with 2 (and the claim theorem
also certifies "x" is kept). -/
theorem claim_C9_witness :
    lookupKey "y" (withDefaults [("x", Value.vnum 1), ("y", Value.vnum 2)]
      Value.undef Value.undef []
      ⟨[("x", PropVal.data (Value.vstr "keep")), ("y", PropVal.data Value.undef)]⟩).props =
      some (PropVal.data (Value.vnum 2)) := by
  have h := (claim_C9 [("x", Value.vnum 1), ("y", Value.vnum 2)] Value.undef Value.undef []
    ⟨[("x", PropVal.data (Value.vstr "keep")), ("y", PropVal.data Value.undef)]⟩ "y"
    (by simp)).2.1 (Value.vnum 2)
    (by
      unfold HookContext.get
      simp [lookupKey])
    (by simp [lookupKey])
  exact h

/-- Claim C5: applying the updater withParams("a","b") to arguments (1,2)
yields context.a = 1 and context.b = 2; context.arguments is a derived
read-only snapshot equal to [1,2]; direct assignment to context.arguments
is a no-op (leaving the whole context, and in particular context.a,
unchanged); and the snapshot is recomputed from the named fields, so
updating context.a changes what context.arguments reads as. -/
theorem claim_C5 (self fv v : Value) (c0 : HookContext) (hd0 : dataOnly c0) :
    (withParams ["a", "b"] self fv [Value.vnum 1, Value.vnum 2] c0).get "a" = Value.vnum 1 ∧
    (withParams ["a", "b"] self fv [Value.vnum 1, Value.vnum 2] c0).get "b" = Value.vnum 2 ∧
    (withParams ["a", "b"] self fv [Value.vnum 1, Value.vnum 2] c0).get "arguments" =
      Value.varr [Value.vnum 1, Value.vnum 2] ∧
    (withParams ["a", "b"] self fv [Value.vnum 1, Value.vnum 2] c0).set "arguments" v =
      withParams ["a", "b"] self fv [Value.vnum 1, Value.vnum 2] c0 ∧
    ((withParams ["a", "b"] self fv [Value.vnum 1, Value.vnum 2] c0).set "arguments" v).get "a" =
      Value.vnum 1 ∧
    ((withParams ["a", "b"] self fv [Value.vnum 1, Value.vnum 2] c0).set "a" v).get "arguments" =
      Value.varr [v, Value.vnum 2] := by
  have hA1 : lookupKey "a" (c0.set "a" (Value.vnum 1)).props =
      some (PropVal.data (Value.vnum 1)) := lookup_set_self (hd0 "a") _
  have hA2 : lookupKey "a"
      ((c0.set "a" (Value.vnum 1)).set "b" (Value.vnum 2)).props =
      some (PropVal.data (Value.vnum 1)) := by
    rw [lookup_set_ne _ (by decide) _]
    exact hA1
  have haG : lookupKey "a" (defineGetter ((c0.set "a" (Value.vnum 1)).set "b" (Value.vnum 2))
      "arguments" ["a", "b"]).props = some (PropVal.data (Value.vnum 1)) := by
    rw [lookup_defineGetter_ne _ (by decide) _]
    exact hA2
  have hngb : ∀ ps, lookupKey "b" (c0.set "a" (Value.vnum 1)).props ≠
      some (PropVal.getter ps) := by
    intro ps
    rw [lookup_set_ne c0 (by decide) _]
    exact hd0 "b" ps
  have hbB : lookupKey "b"
      ((c0.set "a" (Value.vnum 1)).set "b" (Value.vnum 2)).props =
      some (PropVal.data (Value.vnum 2)) := lookup_set_self hngb _
  have hbG : lookupKey "b" (defineGetter ((c0.set "a" (Value.vnum 1)).set "b" (Value.vnum 2))
      "arguments" ["a", "b"]).props = some (PropVal.data (Value.vnum 2)) := by
    rw [lookup_defineGetter_ne _ (by decide) _]
    exact hbB
  have hargG : lookupKey "arguments"
      (defineGetter ((c0.set "a" (Value.vnum 1)).set "b" (Value.vnum 2))
        "arguments" ["a", "b"]).props = some (PropVal.getter ["a", "b"]) :=
    lookup_defineGetter_self _ _ _
  have hfin : ∀ k, k ≠ "self" →
      lookupKey k (withParams ["a", "b"] self fv [Value.vnum 1, Value.vnum 2] c0).props =
      lookupKey k (defineGetter ((c0.set "a" (Value.vnum 1)).set "b" (Value.vnum 2))
        "arguments" ["a", "b"]).props := by
    intro k hk
    show lookupKey k
      (if truthy self
        then (defineGetter ((c0.set "a" (Value.vnum 1)).set "b" (Value.vnum 2))
          "arguments" ["a", "b"]).set "self" self
        else defineGetter ((c0.set "a" (Value.vnum 1)).set "b" (Value.vnum 2))
          "arguments" ["a", "b"]).props = _
    by_cases hs : truthy self = true
    · rw [if_pos hs, lookup_set_ne _ hk self]
    · rw [if_neg hs]
  have h1 : (withParams ["a", "b"] self fv [Value.vnum 1, Value.vnum 2] c0).get "a" =
      Value.vnum 1 := by
    unfold HookContext.get
    rw [hfin "a" (by decide), haG]
  have h2 : (withParams ["a", "b"] self fv [Value.vnum 1, Value.vnum 2] c0).get "b" =
      Value.vnum 2 := by
    unfold HookContext.get
    rw [hfin "b" (by decide), hbG]
  have hda : dataVal (withParams ["a", "b"] self fv [Value.vnum 1, Value.vnum 2] c0) "a" =
      Value.vnum 1 := by
    unfold dataVal
    rw [hfin "a" (by decide), haG]
  have hdb : dataVal (withParams ["a", "b"] self fv [Value.vnum 1, Value.vnum 2] c0) "b" =
      Value.vnum 2 := by
    unfold dataVal
    rw [hfin "b" (by decide), hbG]
  have h3 : (withParams ["a", "b"] self fv [Value.vnum 1, Value.vnum 2] c0).get "arguments" =
      Value.varr [Value.vnum 1, Value.vnum 2] := by
    unfold HookContext.get
    rw [hfin "arguments" (by decide), hargG]
    simp [hda, hdb]
  have h4 : (withParams ["a", "b"] self fv [Value.vnum 1, Value.vnum 2] c0).set "arguments" v =
      withParams ["a", "b"] self fv [Value.vnum 1, Value.vnum 2] c0 := by
    unfold HookContext.set
    rw [hfin "arguments" (by decide), hargG]
  have h5 : ((withParams ["a", "b"] self fv [Value.vnum 1, Value.vnum 2] c0).set "arguments" v).get "a" =
      Value.vnum 1 := by
    rw [h4]
    exact h1
  have hngA : ∀ ps, lookupKey "a"
      (withParams ["a", "b"] self fv [Value.vnum 1, Value.vnum 2] c0).props ≠
      some (PropVal.getter ps) := by
    intro ps h
    rw [hfin "a" (by decide), haG] at h
    simp at h
  have hsetA : lookupKey "a"
      ((withParams ["a", "b"] self fv [Value.vnum 1, Value.vnum 2] c0).set "a" v).props =
      some (PropVal.data v) := lookup_set_self hngA v
  have hda' : dataVal ((withParams ["a", "b"] self fv [Value.vnum 1, Value.vnum 2] c0).set "a" v)
      "a" = v := by
    unfold dataVal
    rw [hsetA]
  have hdb' : dataVal ((withParams ["a", "b"] self fv [Value.vnum 1, Value.vnum 2] c0).set "a" v)
      "b" = Value.vnum 2 := by
    unfold dataVal
    rw [lookup_set_ne _ (by decide) v, hfin "b" (by decide), hbG]
  have h6 : ((withParams ["a", "b"] self fv [Value.vnum 1, Value.vnum 2] c0).set "a" v).get
      "arguments" = Value.varr [v, Value.vnum 2] := by
    unfold HookContext.get
    rw [lookup_set_ne _ (by decide) v, hfin "arguments" (by decide), hargG]
    simp [hda', hdb']
  exact ⟨h1, h2, h3, h4, h5, h6⟩

/-- Witness for claim C5 on the empty initial context and a null
receiver. -/
theorem claim_C5_witness :
    (withParams ["a", "b"] Value.vnull Value.undef [Value.vnum 1, Value.vnum 2] ⟨[]⟩).get "a" =
      Value.vnum 1 ∧
    (withParams ["a", "b"] Value.vnull Value.undef [Value.vnum 1, Value.vnum 2] ⟨[]⟩).get "b" =
      Value.vnum 2 ∧
    (withParams ["a", "b"] Value.vnull Value.undef [Value.vnum 1, Value.vnum 2]
      ⟨[]⟩).get "arguments" = Value.varr [Value.vnum 1, Value.vnum 2] ∧
    (withParams ["a", "b"] Value.vnull Value.undef [Value.vnum 1, Value.vnum 2]
      ⟨[]⟩).set "arguments" (Value.vstr "z") =
      withParams ["a", "b"] Value.vnull Value.undef [Value.vnum 1, Value.vnum 2] ⟨[]⟩ ∧
    ((withParams ["a", "b"] Value.vnull Value.undef [Value.vnum 1, Value.vnum 2]
      ⟨[]⟩).set "arguments" (Value.vstr "z")).get "a" = Value.vnum 1 ∧
    ((withParams ["a", "b"] Value.vnull Value.undef [Value.vnum 1, Value.vnum 2]
      ⟨[]⟩).set "a" (Value.vstr "z")).get "arguments" =
      Value.varr [Value.vstr "z", Value.vnum 2] :=
  claim_C5 Value.vnull Value.undef (Value.vstr "z") ⟨[]⟩
    (by intro k ps; simp [lookupKey])

/-- Claim C8: with zero parameter names, the updater stores the raw
argument array in context.arguments as an ordinary mutable data property
(subsequent assignment to it takes effect), sets context.self to the
receiver exactly when one is present (truthy), and adds no other fields. -/
theorem claim_C8 (self fv v : Value) (args : List Value) (c0 : HookContext)
    (hd0 : dataOnly c0) :
    (withParams [] self fv args c0).get "arguments" = Value.varr args ∧
    ((withParams [] self fv args c0).set "arguments" v).get "arguments" = v ∧
    (truthy self = true → (withParams [] self fv args c0).get "self" = self) ∧
    (truthy self = false →
      lookupKey "self" (withParams [] self fv args c0).props = lookupKey "self" c0.props) ∧
    (∀ k, k ≠ "arguments" → k ≠ "self" →
      lookupKey k (withParams [] self fv args c0).props = lookupKey k c0.props) := by
  have hArg : lookupKey "arguments" (c0.set "arguments" (Value.varr args)).props =
      some (PropVal.data (Value.varr args)) := lookup_set_self (hd0 "arguments") _
  have hfin : ∀ k, k ≠ "self" →
      lookupKey k (withParams [] self fv args c0).props =
      lookupKey k (c0.set "arguments" (Value.varr args)).props := by
    intro k hk
    show lookupKey k
      (if truthy self
        then (c0.set "arguments" (Value.varr args)).set "self" self
        else c0.set "arguments" (Value.varr args)).props = _
    by_cases hs : truthy self = true
    · rw [if_pos hs, lookup_set_ne _ hk self]
    · rw [if_neg hs]
  refine ⟨?_, ?_, ?_, ?_, ?_⟩
  · unfold HookContext.get
    rw [hfin "arguments" (by decide), hArg]
  · have hng : ∀ ps, lookupKey "arguments" (withParams [] self fv args c0).props ≠
        some (PropVal.getter ps) := by
      intro ps h
      rw [hfin "arguments" (by decide), hArg] at h
      simp at h
    unfold HookContext.get
    rw [lookup_set_self hng v]
  · intro hs
    have hngs : ∀ ps, lookupKey "self" (c0.set "arguments" (Value.varr args)).props ≠
        some (PropVal.getter ps) := by
      intro ps
      rw [lookup_set_ne c0 (by decide) _]
      exact hd0 "self" ps
    show (if truthy self
        then (c0.set "arguments" (Value.varr args)).set "self" self
        else c0.set "arguments" (Value.varr args)).get "self" = self
    rw [if_pos hs]
    unfold HookContext.get
    rw [lookup_set_self hngs self]
  · intro hs
    show lookupKey "self"
      (if truthy self
        then (c0.set "arguments" (Value.varr args)).set "self" self
        else c0.set "arguments" (Value.varr args)).props = _
    rw [if_neg (by simp [hs]), lookup_set_ne c0 (by decide) _]
  · intro k h1 h2
    rw [hfin k h2, lookup_set_ne c0 h1 _]

/-- Witness for claim C8: a truthy receiver, one string argument, the
empty initial context; the stored argument array is mutable. -/
theorem claim_C8_witness :
    (withParams [] (Value.varr []) Value.undef [Value.vstr "q"] ⟨[]⟩).get "arguments" =
      Value.varr [Value.vstr "q"] ∧
    ((withParams [] (Value.varr []) Value.undef [Value.vstr "q"] ⟨[]⟩).set "arguments"
      (Value.vnum 3)).get "arguments" = Value.vnum 3 ∧
    (truthy (Value.varr []) = true →
      (withParams [] (Value.varr []) Value.undef [Value.vstr "q"] ⟨[]⟩).get "self" =
        Value.varr []) ∧
    (truthy (Value.varr []) = false →
      lookupKey "self" (withParams [] (Value.varr []) Value.undef [Value.vstr "q"] ⟨[]⟩).props =
        lookupKey "self" (⟨[]⟩ : HookContext).props) ∧
    (∀ k, k ≠ "arguments" → k ≠ "self" →
      lookupKey k (withParams [] (Value.varr []) Value.undef [Value.vstr "q"] ⟨[]⟩).props =
        lookupKey k (⟨[]⟩ : HookContext).props) :=
  claim_C8 (Value.varr []) Value.undef (Value.vnum 3) [Value.vstr "q"] ⟨[]⟩
    (by intro k ps; simp [lookupKey])

end HooksSpec
